import Mathlib

/-!
Verification of the labyrinth map program (`labyrinth.c`).

The development shallowly embeds the C program: the `Map` struct becomes a
structure holding row/column counts and a list of rows of characters; the
recursive flood fill `deep_search` is embedded with an explicit recursion-depth
budget (fuel), and a theorem shows that a budget of `rows * cols + 1` always
suffices, mirroring the C recursion whose depth is bounded by the number of
unvisited cells; `move_player` becomes a pure function returning the error code
together with the (possibly updated) grid.
-/

set_option maxHeartbeats 1000000

namespace Labyrinth

/-- Mirrors `MAX_MAP_DIM` in the C source. -/
def MAX_MAP_DIM : Nat := 100

/-- Grid coordinates, 1-based as in the C source. -/
abbrev Pos := Nat × Nat

/-- Mirrors the C `Map` struct: `rows`, `cols` and the cell array, stored as a
list of rows (row `i`, 1-based, is entry `i - 1`; column `j` is entry `j - 1`). -/
structure Map where
  rows : Nat
  cols : Nat
  cells : List (List Char)
deriving DecidableEq

/-- Mirrors the C `ErrorCode` enum. -/
inductive ErrorCode where
  | ERR_NONE
  | ERR_INVALID_ARGS
  | ERR_MAP_NOT_FOUND
  | ERR_INVALID_MAP
  | ERR_MULTIPLE_EMPTY_AREAS
  | ERR_MOVE_FAILED
deriving DecidableEq

/-- Reading `map->cells[x][y]` (1-based coordinates). The C program only ever
reads coordinates inside `[1, rows] × [1, cols]`, so the default is never
observed on loaded maps. -/
def cellAt (m : Map) (p : Pos) : Char :=
  (m.cells.getD (p.1 - 1) []).getD (p.2 - 1) ' '

/-- Writing `map->cells[x][y] = c` (1-based coordinates). -/
def setCell (m : Map) (p : Pos) (c : Char) : Map :=
  { m with cells := m.cells.set (p.1 - 1) ((m.cells.getD (p.1 - 1) []).set (p.2 - 1) c) }

/-- Structural well-formedness of the list representation: the cell array
really has `rows` rows of `cols` characters (automatic for the C array). -/
def WF (m : Map) : Prop :=
  m.cells.length = m.rows ∧ ∀ r ∈ m.cells, r.length = m.cols

instance (m : Map) : Decidable (WF m) := by
  unfold WF; exact inferInstance

/-- The in-bounds coordinates `[1, rows] × [1, cols]`. -/
def rangeSet (m : Map) : Finset Pos := Finset.Icc 1 m.rows ×ˢ Finset.Icc 1 m.cols

/-- All in-bounds coordinates in row-major order, the iteration order of every
nested `for (i) for (j)` loop in the C source. -/
def positions (m : Map) : List Pos :=
  (List.range m.rows).flatMap fun i => (List.range m.cols).map fun j => (i + 1, j + 1)

/-- Mirrors C `is_player`: with `player = -1` it tests for any of `'1'..'9'`,
otherwise for the specific digit character `player + '0'`. -/
def is_player (m : Map) (p : Pos) (player : Int) : Bool :=
  if player = -1 then decide ('1' ≤ cellAt m p ∧ cellAt m p ≤ '9')
  else decide ((cellAt m p : Char).toNat = (player + 48).toNat)

/-- Mirrors C `is_empty`: a cell is open when it holds `'.'` or a player
character `'1'..'9'` (note: `'0'` is not included, exactly as in the source). -/
def is_empty (m : Map) (p : Pos) : Bool :=
  decide (cellAt m p = '.') || is_player m p (-1)

/-- Mirrors C `trim_newline`: strip trailing `'\n'`/`'\r'` characters. -/
def trim_newline (l : List Char) : List Char :=
  (l.reverse.dropWhile fun c => c == '\n' || c == '\r').reverse

/-- The character alphabet accepted by `load_map`: `'#'`, `'.'`, or a digit. -/
def validChar (c : Char) : Bool :=
  c == '#' || c == '.' || (decide ('0' ≤ c) && decide (c ≤ '9'))

/-- The `fgets` loop body of C `load_map`, processing the remaining lines
given the partially filled map. -/
def load_go : List (List Char) → Map → Except ErrorCode Map
  | [], m => .ok m
  | l :: rest, m =>
    let b := trim_newline l
    if b.length = 0 then load_go rest m
    else if m.rows = 0 then
      if b.length < 1 ∨ MAX_MAP_DIM < b.length then .error .ERR_INVALID_MAP
      else if b.all validChar then load_go rest ⟨1, b.length, [b]⟩
      else .error .ERR_INVALID_MAP
    else
      if b.length ≠ m.cols then .error .ERR_INVALID_MAP
      else if b.all validChar then
        if MAX_MAP_DIM < m.rows + 1 then .error .ERR_INVALID_MAP
        else load_go rest ⟨m.rows + 1, m.cols, m.cells ++ [b]⟩
      else .error .ERR_INVALID_MAP

/-- Mirrors C `load_map` on the sequence of text lines of the input file
(the file-reading collaborator is out of scope, so `ERR_MAP_NOT_FOUND` does
not arise here). -/
def load_map (lines : List (List Char)) : Except ErrorCode Map :=
  load_go lines ⟨0, 0, []⟩

/-- The non-blank input lines after newline stripping: exactly the lines that
`load_map` turns into grid rows. -/
def nonBlank (lines : List (List Char)) : List (List Char) :=
  (lines.map trim_newline).filter fun l => !l.isEmpty

/-- The column count fixed by the first non-blank line. -/
def colCountOf (lines : List (List Char)) : Nat :=
  ((nonBlank lines).headD []).length

/-- The loader's acceptance condition, as stated by the specification: the
first non-blank line fixes a column count in `[1, MAX_MAP_DIM]`, all non-blank
lines have that length and use only `'#'`, `'.'` or digits, and there are at
most `MAX_MAP_DIM` non-blank lines. -/
def goodInput (lines : List (List Char)) : Prop :=
  (∀ l ∈ nonBlank lines, l.length = colCountOf lines ∧ l.all validChar = true) ∧
  (nonBlank lines).length ≤ MAX_MAP_DIM ∧
  (nonBlank lines = [] ∨ (1 ≤ colCountOf lines ∧ colCountOf lines ≤ MAX_MAP_DIM))

instance (lines : List (List Char)) : Decidable (goodInput lines) := by
  unfold goodInput; exact inferInstance

/-- Mirrors C `print_map`: one line per row, columns in order. Each printed
line is terminated by `'\n'`, which the list-of-lines representation models. -/
def print_map (m : Map) : List (List Char) :=
  (List.range m.rows).map fun i => (List.range m.cols).map fun j => cellAt m (i + 1, j + 1)

/-- Guard of the recursive call in C `deep_search`: the neighbour is
in bounds, unvisited, and open. -/
def stepOk (m : Map) (v : Finset Pos) (p : Pos) : Prop :=
  p ∈ rangeSet m ∧ p ∉ v ∧ is_empty m p = true

instance (m : Map) (v : Finset Pos) (p : Pos) : Decidable (stepOk m v p) := by
  unfold stepOk; exact inferInstance

/-- The four neighbour candidates of a cell in the order of the C arrays
`dx = {-1,1,0,0}`, `dy = {0,0,-1,1}`: up, down, left, right. -/
def nbrs (p : Pos) : List Pos :=
  [(p.1 - 1, p.2), (p.1 + 1, p.2), (p.1, p.2 - 1), (p.1, p.2 + 1)]

/-- The `for (i = 0; i < 4; i++)` loop of C `deep_search`: try the neighbour
candidates in order, recursing (via `f`) on each one that passes the guard,
threading the visited set through. -/
def dfsRun (m : Map) (f : Pos → Finset Pos → Finset Pos) : List Pos → Finset Pos → Finset Pos
  | [], v => v
  | q :: qs, v => dfsRun m f qs (if stepOk m v q then f q v else v)

/-- C `deep_search` with an explicit recursion-depth budget `fuel`; the C
function is this with an unbounded call stack. `deepF_eq_deep_search` below
shows a budget of `rows * cols + 1` always suffices, so the bounded and
unbounded versions agree. The cell is marked visited first, then the four
neighbours are explored in order. -/
def deepF (m : Map) (fuel : Nat) (p : Pos) (v : Finset Pos) : Finset Pos :=
  match fuel with
  | 0 => v
  | fuel' + 1 => dfsRun m (deepF m fuel') (nbrs p) (insert p v)

/-- C `deep_search`: flood fill with the (always sufficient) depth budget. -/
def deep_search (m : Map) (p : Pos) (v : Finset Pos) : Finset Pos :=
  deepF m (m.rows * m.cols + 1) p v

/-- The nested scanning loops of C `validate_map`, with the running visited
set and region counter; returns `ERR_MULTIPLE_EMPTY_AREAS` as soon as the
counter exceeds 1. -/
def validateGo (m : Map) (ps : List Pos) (v : Finset Pos) (count : Nat) : ErrorCode :=
  match ps with
  | [] => .ERR_NONE
  | p :: rest =>
    if is_empty m p = true ∧ p ∉ v then
      if 1 < count + 1 then .ERR_MULTIPLE_EMPTY_AREAS
      else validateGo m rest (deep_search m p v) (count + 1)
    else validateGo m rest v count

/-- Mirrors C `validate_map`. -/
def validate_map (m : Map) : ErrorCode :=
  validateGo m (positions m) ∅ 0

/-- An open cell in the sense of the code: in bounds and `is_empty`. -/
def OpenCell (m : Map) (p : Pos) : Prop :=
  p ∈ rangeSet m ∧ is_empty m p = true

instance (m : Map) (p : Pos) : Decidable (OpenCell m p) := by
  unfold OpenCell; exact inferInstance

/-- 4-adjacency between open cells. -/
def Adj (m : Map) (p q : Pos) : Prop :=
  OpenCell m p ∧ OpenCell m q ∧
    ((p.1 = q.1 ∧ (p.2 = q.2 + 1 ∨ q.2 = p.2 + 1)) ∨
     (p.2 = q.2 ∧ (p.1 = q.1 + 1 ∨ q.1 = p.1 + 1)))

/-- Connectivity: reflexive transitive closure of 4-adjacency on open cells. -/
def Reachable (m : Map) : Pos → Pos → Prop := Relation.ReflTransGen (Adj m)

/-- All open cells lie in a single connected region (vacuously true when there
are no open cells at all). -/
def AllReach (m : Map) : Prop :=
  ∀ p q, OpenCell m p → OpenCell m q → Reachable m p q

/-- The direction parsing `if`/`else if` chain of C `move_player`:
row/column deltas, or `none` for an unrecognised direction string. -/
def parseDir (direction : String) : Option (Int × Int) :=
  if direction = "up" then some (-1, 0)
  else if direction = "down" then some (1, 0)
  else if direction = "left" then some (0, -1)
  else if direction = "right" then some (0, 1)
  else none

/-- `player + '0'` in the C source. -/
def playerChar (player : Nat) : Char := Char.ofNat (48 + player)

/-- The row-major break-on-first-match scan used by C `move_player` both for
the player's digit and for the first open cell. -/
def findPos (m : Map) (c : Char) : Option Pos :=
  (positions m).find? fun p => cellAt m p == c

/-- Mirrors C `move_player`, returning the error code together with the
resulting grid (the grid is returned unchanged on every failure path, exactly
as the C function returns before any mutation). -/
def move_player (m : Map) (player : Nat) (direction : String) : ErrorCode × Map :=
  match parseDir direction with
  | none => (.ERR_MOVE_FAILED, m)
  | some (dx, dy) =>
    match findPos m (playerChar player) with
    | none =>
      match findPos m '.' with
      | some q => (.ERR_NONE, setCell m q (playerChar player))
      | none => (.ERR_MOVE_FAILED, m)
    | some (x, y) =>
      let tx : Int := (x : Int) + dx
      let ty : Int := (y : Int) + dy
      if tx < 1 ∨ (m.rows : Int) < tx ∨ ty < 1 ∨ (m.cols : Int) < ty then (.ERR_MOVE_FAILED, m)
      else if cellAt m (tx.toNat, ty.toNat) ≠ '.' then (.ERR_MOVE_FAILED, m)
      else (.ERR_NONE, setCell (setCell m (x, y) '.') (tx.toNat, ty.toNat) (playerChar player))

/-- Number of in-bounds cells holding the character `c`. -/
def countChar (m : Map) (c : Char) : Nat :=
  ((rangeSet m).filter fun p => cellAt m p = c).card

/-- `q` is the row-major-first cell holding `c`. -/
def rowMajorFirst (m : Map) (c : Char) (q : Pos) : Prop :=
  ∃ n : Nat, (positions m)[n]? = some q ∧ cellAt m q = c ∧
    ∀ k : Nat, k < n → ∀ r, (positions m)[k]? = some r → cellAt m r ≠ c

/-- Open cell in the sense of the specification text for claim C1 (digits
`0`-`9` count as open, including `'0'`). This follows the spec's words, to be
compared against the code's `is_empty`. -/
def openC (m : Map) (p : Pos) : Prop :=
  p ∈ rangeSet m ∧ (cellAt m p = '.' ∨ ('0' ≤ cellAt m p ∧ cellAt m p ≤ '9'))

instance (m : Map) (p : Pos) : Decidable (openC m p) := by
  unfold openC; exact inferInstance

/-- 4-adjacency between spec-open cells (claim C1's reading). -/
def AdjC (m : Map) (p q : Pos) : Prop :=
  openC m p ∧ openC m q ∧
    ((p.1 = q.1 ∧ (p.2 = q.2 + 1 ∨ q.2 = p.2 + 1)) ∨
     (p.2 = q.2 ∧ (p.1 = q.1 + 1 ∨ q.1 = p.1 + 1)))

/-- Connectivity of spec-open cells (claim C1's reading). -/
def ReachC (m : Map) : Pos → Pos → Prop := Relation.ReflTransGen (AdjC m)

/-! ### Basic list and grid lemmas -/

theorem getD_set_self {α : Type} (l : List α) (i : Nat) (a d : α) (h : i < l.length) :
    (l.set i a).getD i d = a := by
  induction l generalizing i with
  | nil => simp at h
  | cons x xs ih =>
    cases i with
    | zero => rfl
    | succ n => exact ih n (by simpa using h)

theorem getD_set_ne {α : Type} (l : List α) (i j : Nat) (a d : α) (h : i ≠ j) :
    (l.set i a).getD j d = l.getD j d := by
  induction l generalizing i j with
  | nil => simp
  | cons x xs ih =>
    cases i with
    | zero =>
      cases j with
      | zero => exact absurd rfl h
      | succ n => rfl
    | succ i' =>
      cases j with
      | zero => rfl
      | succ n => simpa using ih i' n (by omega)

theorem mem_rangeSet {m : Map} {p : Pos} :
    p ∈ rangeSet m ↔ (1 ≤ p.1 ∧ p.1 ≤ m.rows) ∧ (1 ≤ p.2 ∧ p.2 ≤ m.cols) := by
  simp [rangeSet, Finset.mem_product, Finset.mem_Icc]

theorem mem_positions {m : Map} {p : Pos} : p ∈ positions m ↔ p ∈ rangeSet m := by
  obtain ⟨a, b⟩ := p
  rw [mem_rangeSet]
  simp only [positions, List.mem_flatMap, List.mem_map, List.mem_range, Prod.mk.injEq]
  constructor
  · rintro ⟨i, hi, j, hj, h1, h2⟩
    omega
  · rintro ⟨⟨h1, h2⟩, h3, h4⟩
    exact ⟨a - 1, by omega, b - 1, by omega, by omega, by omega⟩

theorem card_rangeSet (m : Map) : (rangeSet m).card = m.rows * m.cols := by
  simp [rangeSet, Nat.card_Icc]

theorem rows_setCell (m : Map) (p : Pos) (c : Char) : (setCell m p c).rows = m.rows := rfl

theorem cols_setCell (m : Map) (p : Pos) (c : Char) : (setCell m p c).cols = m.cols := rfl

theorem rangeSet_setCell (m : Map) (p : Pos) (c : Char) :
    rangeSet (setCell m p c) = rangeSet m := rfl

theorem WF_setCell {m : Map} (hWF : WF m) {p : Pos} (hp : p ∈ rangeSet m) (c : Char) :
    WF (setCell m p c) := by
  obtain ⟨hlen, hrow⟩ := hWF
  rw [mem_rangeSet] at hp
  have hp1 : p.1 - 1 < m.cells.length := by omega
  constructor
  · simpa [setCell] using hlen
  · intro r hr
    rcases List.mem_or_eq_of_mem_set hr with h | h
    · exact hrow r h
    · subst h
      rw [List.length_set]
      rw [List.getD_eq_getElem _ _ hp1]
      exact hrow _ (List.getElem_mem hp1)

theorem cellAt_setCell_self {m : Map} (hWF : WF m) {p : Pos} (hp : p ∈ rangeSet m) (c : Char) :
    cellAt (setCell m p c) p = c := by
  obtain ⟨hlen, hrow⟩ := hWF
  rw [mem_rangeSet] at hp
  have h1 : p.1 - 1 < m.cells.length := by omega
  have h2 : p.2 - 1 < (m.cells.getD (p.1 - 1) []).length := by
    rw [List.getD_eq_getElem _ _ h1]
    rw [hrow _ (List.getElem_mem h1)]
    omega
  unfold cellAt setCell
  simp only
  rw [getD_set_self _ _ _ _ h1, getD_set_self _ _ _ _ h2]

theorem cellAt_setCell_ne {m : Map} (hWF : WF m) {p q : Pos} (hp : p ∈ rangeSet m)
    (hq1 : 1 ≤ q.1) (hq2 : 1 ≤ q.2) (hne : q ≠ p) (c : Char) :
    cellAt (setCell m p c) q = cellAt m q := by
  obtain ⟨hlen, hrow⟩ := hWF
  rw [mem_rangeSet] at hp
  unfold cellAt setCell
  simp only
  by_cases h : q.1 = p.1
  · have hcol : q.2 ≠ p.2 := by
      intro hc
      exact hne (Prod.ext_iff.mpr ⟨h, hc⟩)
    have h1 : p.1 - 1 < m.cells.length := by omega
    rw [h, getD_set_self _ _ _ _ h1, getD_set_ne _ _ _ _ _ (by omega)]
  · rw [getD_set_ne _ _ _ _ _ (by omega)]

theorem find?_eq_of_unique {α : Type} (l : List α) (pred : α → Bool) (a : α)
    (ha : a ∈ l) (hpa : pred a = true) (huniq : ∀ b ∈ l, pred b = true → b = a) :
    l.find? pred = some a := by
  induction l with
  | nil => simp at ha
  | cons x xs ih =>
    by_cases hx : pred x = true
    · have hxa : x = a := huniq x (List.mem_cons_self x xs) hx
      subst hxa
      simp [List.find?, hx]
    · have hxf : pred x = false := by simpa using hx
      have hax : a ≠ x := fun h => hx (h ▸ hpa)
      have ha' : a ∈ xs := by
        rcases List.mem_cons.mp ha with h | h
        · exact absurd h hax
        · exact h
      simp only [List.find?, hxf]
      exact ih ha' fun b hb hpb => huniq b (List.mem_cons_of_mem _ hb) hpb

theorem findPos_rowMajorFirst {m : Map} {c : Char} {q : Pos} (h : findPos m c = some q) :
    rowMajorFirst m c q := by
  rw [findPos, List.find?_eq_some_iff_getElem] at h
  obtain ⟨hq, i, hi, hgi, hbefore⟩ := h
  refine ⟨i, ?_, ?_, ?_⟩
  · rw [List.getElem?_eq_getElem hi, hgi]
  · simpa using hq
  · intro k hk r hr hcr
    have hk' : k < (positions m).length := by omega
    have hb := hbefore k hk
    rw [List.getElem?_eq_getElem hk'] at hr
    have hrk : (positions m)[k] = r := Option.some.inj hr
    rw [hrk] at hb
    simp [hcr] at hb

/-! ### Loader lemmas -/

theorem nonBlank_cons_blank {l : List Char} (rest : List (List Char))
    (h : (trim_newline l).length = 0) : nonBlank (l :: rest) = nonBlank rest := by
  have hb : trim_newline l = [] := List.length_eq_zero.mp h
  simp [nonBlank, hb]

theorem nonBlank_cons_nonblank {l : List Char} (rest : List (List Char))
    (h : (trim_newline l).length ≠ 0) :
    nonBlank (l :: rest) = trim_newline l :: nonBlank rest := by
  have hb : trim_newline l ≠ [] := fun he => h (by simp [he])
  simp [nonBlank, List.isEmpty_iff, hb]

theorem load_go_error : ∀ (lines : List (List Char)) (m : Map) (e : ErrorCode),
    load_go lines m = .error e → e = .ERR_INVALID_MAP := by
  intro lines
  induction lines with
  | nil =>
    intro m e h
    simp [load_go] at h
  | cons l rest ih =>
    intro m e h
    simp only [load_go] at h
    split at h
    · exact ih _ _ h
    · split at h
      · split at h
        · injection h with h
          exact h.symm
        · split at h
          · exact ih _ _ h
          · injection h with h
            exact h.symm
      · split at h
        · injection h with h
          exact h.symm
        · split at h
          · split at h
            · injection h with h
              exact h.symm
            · exact ih _ _ h
          · injection h with h
            exact h.symm

theorem load_go_pos_iff : ∀ (lines : List (List Char)) (m : Map), 1 ≤ m.rows →
    m.rows ≤ MAX_MAP_DIM →
    ((∃ m', load_go lines m = .ok m') ↔
      ((∀ l ∈ nonBlank lines, l.length = m.cols ∧ l.all validChar = true) ∧
        m.rows + (nonBlank lines).length ≤ MAX_MAP_DIM)) := by
  intro lines
  induction lines with
  | nil =>
    intro m h1 h2
    simp [load_go, nonBlank, h2]
  | cons l rest ih =>
    intro m h1 h2
    simp only [load_go]
    by_cases hb : (trim_newline l).length = 0
    · rw [if_pos hb, nonBlank_cons_blank rest hb]
      exact ih m h1 h2
    · rw [if_neg hb, if_neg (by omega), nonBlank_cons_nonblank rest hb]
      by_cases hc : (trim_newline l).length = m.cols
      case neg =>
        rw [if_pos hc]
        constructor
        · rintro ⟨m', hm'⟩
          exact absurd hm' (by simp)
        · rintro ⟨hall, _⟩
          exact absurd (hall _ (List.mem_cons_self _ _)).1 hc
      case pos =>
        rw [if_neg (by simp [hc])]
        by_cases hv : (trim_newline l).all validChar = true
        · rw [if_pos hv]
          by_cases hd : MAX_MAP_DIM < m.rows + 1
          · rw [if_pos hd]
            constructor
            · rintro ⟨m', hm'⟩
              exact absurd hm' (by simp)
            · rintro ⟨_, hlen⟩
              simp only [List.length_cons] at hlen
              omega
          · rw [if_neg hd]
            rw [ih ⟨m.rows + 1, m.cols, m.cells ++ [trim_newline l]⟩
              (by show 1 ≤ m.rows + 1; omega)
              (by show m.rows + 1 ≤ MAX_MAP_DIM; omega)]
            dsimp only
            constructor
            · rintro ⟨hall, hlen⟩
              refine ⟨?_, by simp only [List.length_cons]; omega⟩
              intro x hx
              rcases List.mem_cons.mp hx with h | h
              · subst h
                exact ⟨hc, hv⟩
              · exact hall x h
            · rintro ⟨hall, hlen⟩
              refine ⟨fun x hx => hall x (List.mem_cons_of_mem _ hx), ?_⟩
              simp only [List.length_cons] at hlen
              omega
        · rw [if_neg hv]
          constructor
          · rintro ⟨m', hm'⟩
            exact absurd hm' (by simp)
          · rintro ⟨hall, _⟩
            exact absurd (hall _ (List.mem_cons_self _ _)).2 hv

theorem load_map_iff : ∀ lines : List (List Char),
    (∃ m', load_map lines = .ok m') ↔ goodInput lines := by
  intro lines
  rw [load_map]
  induction lines with
  | nil => simp [load_go, goodInput, nonBlank]
  | cons l rest ih =>
    simp only [load_go]
    by_cases hb : (trim_newline l).length = 0
    · rw [if_pos hb, ih]
      unfold goodInput colCountOf
      rw [nonBlank_cons_blank rest hb]
    · rw [if_neg hb, if_pos trivial]
      unfold goodInput colCountOf
      rw [nonBlank_cons_nonblank rest hb]
      simp only [List.headD_cons]
      by_cases hlen : (trim_newline l).length < 1 ∨ MAX_MAP_DIM < (trim_newline l).length
      · rw [if_pos hlen]
        constructor
        · rintro ⟨m', hm'⟩
          exact absurd hm' (by simp)
        · rintro ⟨hall, hcount, hor⟩
          rcases hor with h | h
          · exact absurd h (List.cons_ne_nil _ _)
          · omega
      · rw [if_neg hlen]
        push_neg at hlen
        by_cases hv : (trim_newline l).all validChar = true
        · rw [if_pos hv]
          rw [load_go_pos_iff rest ⟨1, (trim_newline l).length, [trim_newline l]⟩
            (by show 1 ≤ 1; omega) (by show 1 ≤ MAX_MAP_DIM; decide)]
          dsimp only
          constructor
          · rintro ⟨hall, hcount⟩
            refine ⟨?_, by simp only [List.length_cons]; omega, Or.inr ⟨by omega, by omega⟩⟩
            intro x hx
            rcases List.mem_cons.mp hx with h | h
            · subst h
              exact ⟨rfl, hv⟩
            · exact hall x h
          · rintro ⟨hall, hcount, hor⟩
            refine ⟨fun x hx => hall x (List.mem_cons_of_mem _ hx), ?_⟩
            simp only [List.length_cons] at hcount
            omega
        · rw [if_neg hv]
          constructor
          · rintro ⟨m', hm'⟩
            exact absurd hm' (by simp)
          · rintro ⟨hall, _⟩
            exact absurd (hall _ (List.mem_cons_self _ _)).2 hv

theorem load_go_ok_state : ∀ (lines : List (List Char)) (m m' : Map), 1 ≤ m.rows →
    load_go lines m = .ok m' →
    m'.rows = m.rows + (nonBlank lines).length ∧ m'.cols = m.cols ∧
      m'.cells = m.cells ++ nonBlank lines := by
  intro lines
  induction lines with
  | nil =>
    intro m m' h1 h
    simp only [load_go] at h
    injection h with h
    subst h
    simp [nonBlank]
  | cons l rest ih =>
    intro m m' h1 h
    simp only [load_go] at h
    by_cases hb : (trim_newline l).length = 0
    · rw [if_pos hb] at h
      rw [nonBlank_cons_blank rest hb]
      exact ih m m' h1 h
    · rw [if_neg hb, if_neg (by omega)] at h
      rw [nonBlank_cons_nonblank rest hb]
      split at h
      · exact absurd h (by simp)
      · split at h
        · split at h
          · exact absurd h (by simp)
          · have hst := ih _ m' (by show 1 ≤ m.rows + 1; omega) h
            dsimp only at hst
            obtain ⟨ha, hbb, hcc⟩ := hst
            refine ⟨by simp only [List.length_cons]; omega, hbb, ?_⟩
            rw [hcc]
            simp
        · exact absurd h (by simp)

theorem load_map_ok_state : ∀ (lines : List (List Char)) (m' : Map),
    load_map lines = .ok m' →
    m'.cells = nonBlank lines ∧ m'.rows = (nonBlank lines).length ∧
      (nonBlank lines ≠ [] → m'.cols = colCountOf lines) := by
  intro lines
  induction lines with
  | nil =>
    intro m' h
    simp only [load_map, load_go] at h
    injection h with h
    subst h
    simp [nonBlank]
  | cons l rest ih =>
    intro m' h
    simp only [load_map, load_go] at h
    by_cases hb : (trim_newline l).length = 0
    · rw [if_pos hb] at h
      have := ih m' (by rw [load_map]; exact h)
      rw [nonBlank_cons_blank rest hb]
      unfold colCountOf at this ⊢
      rw [nonBlank_cons_blank rest hb]
      exact this
    · rw [if_neg hb, if_pos trivial] at h
      rw [nonBlank_cons_nonblank rest hb]
      unfold colCountOf
      rw [nonBlank_cons_nonblank rest hb]
      simp only [List.headD_cons]
      split at h
      · exact absurd h (by simp)
      · split at h
        · have hst := load_go_ok_state rest _ m' (by show 1 ≤ 1; omega) h
          dsimp only at hst
          obtain ⟨ha, hbb, hcc⟩ := hst
          refine ⟨by rw [hcc]; simp, by rw [ha]; simp only [List.length_cons]; omega, fun _ => hbb⟩
        · exact absurd h (by simp)

theorem print_map_eq_cells {m : Map} (hWF : WF m) : print_map m = m.cells := by
  obtain ⟨hlen, hrow⟩ := hWF
  apply List.ext_getElem
  · simp [print_map, hlen]
  · intro i h1 h2
    simp only [print_map, List.getElem_map, List.getElem_range]
    apply List.ext_getElem
    · simp [hrow _ (List.getElem_mem h2)]
    · intro j hj1 hj2
      simp only [List.getElem_map, List.getElem_range, cellAt, Nat.add_sub_cancel]
      rw [List.getD_eq_getElem _ _ h2, List.getD_eq_getElem _ _ hj2]

theorem load_map_WF {lines : List (List Char)} {m' : Map} (hg : goodInput lines)
    (h : load_map lines = .ok m') : WF m' := by
  obtain ⟨hcells, hrows, hcols⟩ := load_map_ok_state lines m' h
  constructor
  · rw [hcells, hrows]
  · intro r hr
    rw [hcells] at hr
    have hnb : nonBlank lines ≠ [] := by
      intro he
      rw [he] at hr
      simp at hr
    rw [hcols hnb]
    exact (hg.1 r hr).1

/-! ### Flood-fill lemmas -/

theorem dfsRun_mono {m : Map} {f : Pos → Finset Pos → Finset Pos}
    (hf : ∀ q w, w ⊆ f q w) : ∀ (qs : List Pos) (v : Finset Pos), v ⊆ dfsRun m f qs v := by
  intro qs
  induction qs with
  | nil => intro v; exact subset_rfl
  | cons q qs ih =>
    intro v
    simp only [dfsRun]
    by_cases h : stepOk m v q
    · rw [if_pos h]
      exact (hf q v).trans (ih _)
    · rw [if_neg h]
      exact ih v

theorem dfsRun_invariant {m : Map} {f : Pos → Finset Pos → Finset Pos}
    (P : Finset Pos → Prop) :
    ∀ (qs : List Pos), (∀ w q, q ∈ qs → P w → stepOk m w q → P (f q w)) →
      ∀ v, P v → P (dfsRun m f qs v) := by
  intro qs
  induction qs with
  | nil => intro _ v hv; exact hv
  | cons q qs ih =>
    intro hstep v hv
    simp only [dfsRun]
    by_cases h : stepOk m v q
    · rw [if_pos h]
      exact ih (fun w r hr => hstep w r (List.mem_cons_of_mem _ hr)) _
        (hstep v q (List.mem_cons_self _ _) hv h)
    · rw [if_neg h]
      exact ih (fun w r hr => hstep w r (List.mem_cons_of_mem _ hr)) v hv

theorem deepF_mono (m : Map) : ∀ (fuel : Nat) (p : Pos) (v : Finset Pos),
    v ⊆ deepF m fuel p v := by
  intro fuel
  induction fuel with
  | zero => intro p v; exact subset_rfl
  | succ fuel ih =>
    intro p v
    simp only [deepF]
    exact (Finset.subset_insert p v).trans (dfsRun_mono (fun q w => ih q w) _ _)

theorem deepF_insert_subset (m : Map) (fuel : Nat) (p : Pos) (v : Finset Pos) :
    insert p v ⊆ deepF m (fuel + 1) p v := by
  simp only [deepF]
  exact dfsRun_mono (fun q w => deepF_mono m fuel q w) _ _

theorem deep_search_mono (m : Map) (p : Pos) (v : Finset Pos) : v ⊆ deep_search m p v :=
  deepF_mono m _ p v

theorem deep_search_insert_subset (m : Map) (p : Pos) (v : Finset Pos) :
    insert p v ⊆ deep_search m p v :=
  deepF_insert_subset m _ p v

theorem deepF_subset_range (m : Map) : ∀ (fuel : Nat) (p : Pos) (v : Finset Pos),
    deepF m fuel p v ⊆ insert p (v ∪ rangeSet m) := by
  intro fuel
  induction fuel with
  | zero =>
    intro p v
    exact (Finset.subset_union_left.trans (Finset.subset_insert _ _))
  | succ fuel ih =>
    intro p v
    simp only [deepF]
    refine dfsRun_invariant (fun w => w ⊆ insert p (v ∪ rangeSet m)) (nbrs p) ?_ _ ?_
    · intro w q _ hPw hstep
      refine (ih q w).trans ?_
      intro x hx
      rcases Finset.mem_insert.mp hx with rfl | hx
      · exact Finset.mem_insert_of_mem (Finset.mem_union_right _ hstep.1)
      · rcases Finset.mem_union.mp hx with hx | hx
        · exact hPw hx
        · exact Finset.mem_insert_of_mem (Finset.mem_union_right _ hx)
    · exact Finset.insert_subset_insert _ Finset.subset_union_left

theorem dfsRun_congr {m : Map} {f g : Pos → Finset Pos → Finset Pos} {B : Finset Pos}
    (hfg : ∀ q w, B ⊆ w → stepOk m w q → f q w = g q w)
    (hf : ∀ q w, w ⊆ f q w) :
    ∀ (qs : List Pos) (w : Finset Pos), B ⊆ w → dfsRun m f qs w = dfsRun m g qs w := by
  intro qs
  induction qs with
  | nil => intro w _; rfl
  | cons q qs ih =>
    intro w hw
    simp only [dfsRun]
    by_cases h : stepOk m w q
    · rw [if_pos h, if_pos h, ← hfg q w hw h]
      exact ih _ (hw.trans (hf q w))
    · rw [if_neg h, if_neg h]
      exact ih w hw

theorem card_sdiff_lt {m : Map} {p : Pos} {v w : Finset Pos}
    (hp : p ∈ rangeSet m) (hpv : p ∉ v) (hw : insert p v ⊆ w) :
    (rangeSet m \ w).card ≤ (rangeSet m \ v).card - 1 ∧ 1 ≤ (rangeSet m \ v).card := by
  have hmem : p ∈ rangeSet m \ v := Finset.mem_sdiff.mpr ⟨hp, hpv⟩
  have h1 : rangeSet m \ w ⊆ (rangeSet m \ v).erase p := by
    rw [← Finset.sdiff_insert]
    exact Finset.sdiff_subset_sdiff subset_rfl hw
  constructor
  · calc (rangeSet m \ w).card ≤ ((rangeSet m \ v).erase p).card := Finset.card_le_card h1
      _ = (rangeSet m \ v).card - 1 := Finset.card_erase_of_mem hmem
  · exact Finset.card_pos.mpr ⟨p, hmem⟩

theorem deepF_stable (m : Map) : ∀ (n : Nat) (p : Pos) (v : Finset Pos) (a b : Nat),
    (rangeSet m \ v).card ≤ n → p ∈ rangeSet m → p ∉ v → n < a → n < b →
    deepF m a p v = deepF m b p v := by
  intro n
  induction n with
  | zero =>
    intro p v a b hcard hp hpv _ _
    exfalso
    have hmem : p ∈ rangeSet m \ v := Finset.mem_sdiff.mpr ⟨hp, hpv⟩
    have hpos : 0 < (rangeSet m \ v).card := Finset.card_pos.mpr ⟨p, hmem⟩
    omega
  | succ n ih =>
    intro p v a b hcard hp hpv ha hb
    obtain ⟨a', rfl⟩ : ∃ a', a = a' + 1 := ⟨a - 1, by omega⟩
    obtain ⟨b', rfl⟩ : ∃ b', b = b' + 1 := ⟨b - 1, by omega⟩
    simp only [deepF]
    refine dfsRun_congr (B := insert p v) ?_ (fun q w => deepF_mono m a' q w)
      (nbrs p) (insert p v) subset_rfl
    intro q w hw hstep
    obtain ⟨hcd, hpos⟩ := card_sdiff_lt hp hpv hw
    exact ih q w a' b' (by omega) hstep.1 hstep.2.1 (by omega) (by omega)

theorem deep_search_unfold {m : Map} {p : Pos} {v : Finset Pos}
    (hp : p ∈ rangeSet m) (hpv : p ∉ v) :
    deep_search m p v = dfsRun m (fun q w => deep_search m q w) (nbrs p) (insert p v) := by
  have hR : (rangeSet m).card = m.rows * m.cols := card_rangeSet m
  rw [deep_search]
  simp only [deepF]
  refine dfsRun_congr (B := insert p v) ?_ (fun q w => deepF_mono m _ q w)
    (nbrs p) (insert p v) subset_rfl
  intro q w hw hstep
  show deepF m (m.rows * m.cols) q w = deep_search m q w
  rw [deep_search]
  obtain ⟨hcd, hpos⟩ := card_sdiff_lt hp hpv hw
  have hle : (rangeSet m \ v).card ≤ (rangeSet m).card :=
    Finset.card_le_card (Finset.sdiff_subset)
  exact deepF_stable m ((rangeSet m \ w).card) q w _ _ le_rfl hstep.1 hstep.2.1
    (by omega) (by omega)

/-! ### Adjacency lemmas -/

theorem Adj_symm {m : Map} : Symmetric (Adj m) := by
  rintro p q ⟨hp, hq, h⟩
  refine ⟨hq, hp, ?_⟩
  tauto

theorem Reachable_symm {m : Map} : Symmetric (Reachable m) :=
  Relation.ReflTransGen.symmetric Adj_symm

theorem reach_open {m : Map} {p q : Pos} (h : Reachable m p q) (hp : OpenCell m p) :
    OpenCell m q := by
  induction h with
  | refl => exact hp
  | tail _ hadj _ => exact hadj.2.1

theorem adj_of_nbr {m : Map} {p q : Pos} (hp : OpenCell m p) (hq : q ∈ nbrs p)
    (hqr : q ∈ rangeSet m) (hqe : is_empty m q = true) : Adj m p q := by
  refine ⟨hp, ⟨hqr, hqe⟩, ?_⟩
  have hp1 := mem_rangeSet.mp hp.1
  have hq1 := mem_rangeSet.mp hqr
  obtain ⟨x, y⟩ := p
  simp only [nbrs, List.mem_cons, List.not_mem_nil, or_false] at hq
  rcases hq with rfl | rfl | rfl | rfl
  all_goals dsimp only at hp1 hq1 ⊢
  all_goals omega

theorem nbr_of_adj {m : Map} {p q : Pos} (h : Adj m p q) : q ∈ nbrs p := by
  obtain ⟨hp, hq, hrel⟩ := h
  have hp1 := mem_rangeSet.mp hp.1
  have hq1 := mem_rangeSet.mp hq.1
  obtain ⟨a, b⟩ := q
  simp only [nbrs, List.mem_cons, List.not_mem_nil, or_false, Prod.mk.injEq]
  simp only at hp1 hq1
  rcases hrel with ⟨h1, h2 | h2⟩ | ⟨h1, h2 | h2⟩
  all_goals simp only at h1 h2
  all_goals omega

/-! ### Flood-fill correctness -/

theorem deepF_sound (m : Map) : ∀ (fuel : Nat) (p : Pos) (v : Finset Pos),
    OpenCell m p → ∀ x ∈ deepF m fuel p v, x ∈ v ∨ Reachable m p x := by
  intro fuel
  induction fuel with
  | zero => intro p v _ x hx; exact Or.inl hx
  | succ fuel ih =>
    intro p v hp
    simp only [deepF]
    refine dfsRun_invariant (fun w => ∀ x ∈ w, x ∈ v ∨ Reachable m p x) (nbrs p) ?_ _ ?_
    · intro w q hqmem hPw hstep x hx
      rcases ih q w ⟨hstep.1, hstep.2.2⟩ x hx with hxw | hreach
      · exact hPw x hxw
      · right
        have hadj : Adj m p q := adj_of_nbr hp hqmem hstep.1 hstep.2.2
        exact Relation.ReflTransGen.trans (Relation.ReflTransGen.single hadj) hreach
    · intro x hx
      rcases Finset.mem_insert.mp hx with rfl | hx
      · exact Or.inr Relation.ReflTransGen.refl
      · exact Or.inl hx

theorem dfsRun_capture {m : Map} :
    ∀ (qs : List Pos) (w₀ : Finset Pos) (q : Pos), q ∈ qs → q ∈ rangeSet m →
      is_empty m q = true → q ∈ dfsRun m (fun r w => deep_search m r w) qs w₀ := by
  intro qs
  induction qs with
  | nil => intro w₀ q h _ _; simp at h
  | cons r qs ih =>
    intro w₀ q hq hqr hqe
    simp only [dfsRun]
    rcases List.mem_cons.mp hq with rfl | hq
    · by_cases h : stepOk m w₀ q
      · rw [if_pos h]
        have hself : q ∈ deep_search m q w₀ :=
          deep_search_insert_subset m q w₀ (Finset.mem_insert_self q w₀)
        exact dfsRun_mono (fun r w => deep_search_mono m r w) qs _ hself
      · rw [if_neg h]
        have hqw : q ∈ w₀ := by
          by_contra hnq
          exact h ⟨hqr, hnq, hqe⟩
        exact dfsRun_mono (fun r w => deep_search_mono m r w) qs _ hqw
    · exact ih _ q hq hqr hqe

theorem dfsRun_closed_new {m : Map} {n : Nat}
    (ihds : ∀ (q : Pos) (w : Finset Pos), (rangeSet m \ w).card ≤ n → q ∈ rangeSet m → q ∉ w →
      ∀ a ∈ deep_search m q w, a ∉ w → ∀ b, Adj m a b → b ∈ deep_search m q w) :
    ∀ (qs : List Pos) (w₀ : Finset Pos), (rangeSet m \ w₀).card ≤ n →
      ∀ a ∈ dfsRun m (fun q w => deep_search m q w) qs w₀, a ∉ w₀ →
        ∀ b, Adj m a b → b ∈ dfsRun m (fun q w => deep_search m q w) qs w₀ := by
  intro qs
  induction qs with
  | nil =>
    intro w₀ _ a ha hna b _
    exact absurd ha hna
  | cons q qs ih =>
    intro w₀ hcard a ha hna b hadj
    simp only [dfsRun] at ha ⊢
    by_cases h : stepOk m w₀ q
    · rw [if_pos h] at ha ⊢
      by_cases haw : a ∈ deep_search m q w₀
      · have hb : b ∈ deep_search m q w₀ := ihds q w₀ hcard h.1 h.2.1 a haw hna b hadj
        exact dfsRun_mono (fun r w => deep_search_mono m r w) qs _ hb
      · have hc2 : (rangeSet m \ deep_search m q w₀).card ≤ n :=
          le_trans (Finset.card_le_card
            (Finset.sdiff_subset_sdiff subset_rfl (deep_search_mono m q w₀))) hcard
        exact ih _ hc2 a ha haw b hadj
    · rw [if_neg h] at ha ⊢
      exact ih w₀ hcard a ha hna b hadj

theorem deep_search_closed (m : Map) : ∀ (n : Nat) (p : Pos) (v : Finset Pos),
    (rangeSet m \ v).card ≤ n → p ∈ rangeSet m → p ∉ v →
    ∀ a ∈ deep_search m p v, a ∉ v → ∀ b, Adj m a b → b ∈ deep_search m p v := by
  intro n
  induction n with
  | zero =>
    intro p v hcard hp hpv
    exfalso
    have hmem : p ∈ rangeSet m \ v := Finset.mem_sdiff.mpr ⟨hp, hpv⟩
    have hpos : 0 < (rangeSet m \ v).card := Finset.card_pos.mpr ⟨p, hmem⟩
    omega
  | succ n ih =>
    intro p v hcard hp hpv a ha hav b hadj
    rw [deep_search_unfold hp hpv] at ha ⊢
    by_cases hains : a ∈ insert p v
    · have hap : a = p := by
        rcases Finset.mem_insert.mp hains with h | h
        · exact h
        · exact absurd h hav
      subst hap
      have hb := hadj.2.1
      exact dfsRun_capture (nbrs a) (insert a v) b (nbr_of_adj hadj) hb.1 hb.2
    · have hc : (rangeSet m \ insert p v).card ≤ n := by
        rw [Finset.sdiff_insert]
        have hcd := Finset.card_erase_of_mem (Finset.mem_sdiff.mpr ⟨hp, hpv⟩)
        omega
      exact dfsRun_closed_new (fun q w hc' => ih q w hc') (nbrs p) (insert p v) hc a ha hains b hadj

/-- The visited set is closed under adjacency. -/
def Closed (m : Map) (v : Finset Pos) : Prop := ∀ a ∈ v, ∀ b, Adj m a b → b ∈ v

theorem reach_mem_closed {m : Map} {v : Finset Pos} (hv : Closed m v) {p a : Pos}
    (h : Reachable m p a) : a ∈ v → p ∈ v := by
  induction h with
  | refl => exact id
  | tail _ hadj ih => intro hc; exact ih (hv _ hc _ (Adj_symm hadj))

theorem deep_search_complete {m : Map} {v : Finset Pos} (hv : Closed m v) {p : Pos}
    (hp : OpenCell m p) (hpv : p ∉ v) :
    ∀ x, Reachable m p x → x ∈ deep_search m p v := by
  intro x h
  induction h with
  | refl => exact deep_search_insert_subset m p v (Finset.mem_insert_self p v)
  | tail hr hadj ih =>
    have hbv : ∀ y, Reachable m p y → y ∉ v := by
      intro y hy hyv
      exact hpv (reach_mem_closed hv hy hyv)
    exact deep_search_closed m ((rangeSet m \ v).card) p v le_rfl hp.1 hpv _ ih
      (hbv _ hr) _ hadj

theorem deep_search_spec {m : Map} {v : Finset Pos} (hv : Closed m v) {p : Pos}
    (hp : OpenCell m p) (hpv : p ∉ v) :
    ∀ x, x ∈ deep_search m p v ↔ x ∈ v ∨ Reachable m p x := by
  intro x
  constructor
  · intro hx
    exact deepF_sound m _ p v hp x hx
  · rintro (hx | hx)
    · exact deep_search_mono m p v hx
    · exact deep_search_complete hv hp hpv x hx

theorem Closed_deep_search {m : Map} {v : Finset Pos} (hv : Closed m v) {p : Pos}
    (hp : OpenCell m p) (hpv : p ∉ v) : Closed m (deep_search m p v) := by
  intro a ha b hadj
  by_cases hav : a ∈ v
  · exact deep_search_mono m p v (hv a hav b hadj)
  · exact deep_search_closed m ((rangeSet m \ v).card) p v le_rfl hp.1 hpv a ha hav b hadj

/-! ### Validator correctness -/

theorem validateGo_total (m : Map) : ∀ (ps : List Pos) (v : Finset Pos) (count : Nat),
    validateGo m ps v count = .ERR_NONE ∨
      validateGo m ps v count = .ERR_MULTIPLE_EMPTY_AREAS := by
  intro ps
  induction ps with
  | nil => intro v c; exact Or.inl rfl
  | cons p ps ih =>
    intro v c
    simp only [validateGo]
    by_cases h : is_empty m p = true ∧ p ∉ v
    · rw [if_pos h]
      by_cases hc : 1 < c + 1
      · rw [if_pos hc]
        exact Or.inr rfl
      · rw [if_neg hc]
        exact ih _ _
    · rw [if_neg h]
      exact ih _ _

/-- Invariant of the scanning loop: with region counter `count`, the visited
set is empty (`count = 0`) or is exactly one full connected component
(`count = 1`). -/
def VState (m : Map) (v : Finset Pos) (count : Nat) : Prop :=
  (count = 0 ∧ v = ∅) ∨
  (count = 1 ∧ ∃ p₀, OpenCell m p₀ ∧ ∀ q, q ∈ v ↔ Reachable m p₀ q)

theorem validateGo_none (m : Map) : ∀ (ps : List Pos) (v : Finset Pos) (count : Nat),
    (∀ q, OpenCell m q → q ∈ v ∨ q ∈ ps) → (∀ q ∈ ps, q ∈ rangeSet m) →
    VState m v count → validateGo m ps v count = .ERR_NONE → AllReach m := by
  intro ps
  induction ps with
  | nil =>
    intro v count hcover _ hstate _
    rcases hstate with ⟨_, rfl⟩ | ⟨_, p₀, hp₀, hchar⟩
    · intro p q hp _
      rcases hcover p hp with h | h
      · simp at h
      · simp at h
    · intro p q hp hq
      have hvp : p ∈ v := by
        rcases hcover p hp with h | h
        · exact h
        · simp at h
      have hvq : q ∈ v := by
        rcases hcover q hq with h | h
        · exact h
        · simp at h
      exact Relation.ReflTransGen.trans (Reachable_symm ((hchar p).mp hvp)) ((hchar q).mp hvq)
  | cons p ps ih =>
    intro v count hcover hrange hstate hval
    simp only [validateGo] at hval
    by_cases h : is_empty m p = true ∧ p ∉ v
    · rw [if_pos h] at hval
      rcases hstate with ⟨hc0, hv0⟩ | ⟨hc1, _⟩
      · subst hc0
        subst hv0
        rw [if_neg (by omega)] at hval
        have hpopen : OpenCell m p := ⟨hrange p (List.mem_cons_self _ _), h.1⟩
        apply ih _ _ ?_ (fun q hq => hrange q (List.mem_cons_of_mem _ hq)) ?_ hval
        · intro q hq
          rcases hcover q hq with hqv | hqps
          · simp at hqv
          · rcases List.mem_cons.mp hqps with rfl | hqps
            · exact Or.inl (deep_search_insert_subset m q ∅ (Finset.mem_insert_self _ _))
            · exact Or.inr hqps
        · right
          refine ⟨rfl, p, hpopen, ?_⟩
          intro q
          rw [deep_search_spec (v := ∅) (fun a ha => by simp at ha) hpopen (by simp) q]
          simp
      · subst hc1
        rw [if_pos (by omega)] at hval
        exact absurd hval (by simp)
    · rw [if_neg h] at hval
      apply ih _ _ ?_ (fun q hq => hrange q (List.mem_cons_of_mem _ hq)) hstate hval
      intro q hq
      rcases hcover q hq with hqv | hqps
      · exact Or.inl hqv
      · rcases List.mem_cons.mp hqps with rfl | hqps
        · left
          by_contra hqnv
          exact h ⟨hq.2, hqnv⟩
        · exact Or.inr hqps

theorem validateGo_multiple (m : Map) : ∀ (ps : List Pos) (v : Finset Pos) (count : Nat),
    (∀ q ∈ ps, q ∈ rangeSet m) → VState m v count →
    validateGo m ps v count = .ERR_MULTIPLE_EMPTY_AREAS →
    ∃ p q, OpenCell m p ∧ OpenCell m q ∧ ¬ Reachable m p q := by
  intro ps
  induction ps with
  | nil =>
    intro v count _ _ hval
    simp [validateGo] at hval
  | cons p ps ih =>
    intro v count hrange hstate hval
    simp only [validateGo] at hval
    by_cases h : is_empty m p = true ∧ p ∉ v
    · rw [if_pos h] at hval
      rcases hstate with ⟨hc0, hv0⟩ | ⟨hc1, p₀, hp₀, hchar⟩
      · subst hc0
        subst hv0
        rw [if_neg (by omega)] at hval
        have hpopen : OpenCell m p := ⟨hrange p (List.mem_cons_self _ _), h.1⟩
        apply ih _ _ (fun q hq => hrange q (List.mem_cons_of_mem _ hq)) ?_ hval
        right
        refine ⟨rfl, p, hpopen, ?_⟩
        intro q
        rw [deep_search_spec (v := ∅) (fun a ha => by simp at ha) hpopen (by simp) q]
        simp
      · have hpopen : OpenCell m p := ⟨hrange p (List.mem_cons_self _ _), h.1⟩
        refine ⟨p₀, p, hp₀, hpopen, ?_⟩
        intro hreach
        exact h.2 ((hchar p).mpr hreach)
    · rw [if_neg h] at hval
      exact ih _ _ (fun q hq => hrange q (List.mem_cons_of_mem _ hq)) hstate hval

theorem validate_map_correct (m : Map) :
    (validate_map m = .ERR_NONE ↔ AllReach m) ∧
    (validate_map m = .ERR_MULTIPLE_EMPTY_AREAS ↔
      ∃ p q, OpenCell m p ∧ OpenCell m q ∧ ¬ Reachable m p q) := by
  have hnone : validate_map m = .ERR_NONE → AllReach m := by
    intro h
    exact validateGo_none m (positions m) ∅ 0
      (fun q hq => Or.inr (mem_positions.mpr hq.1))
      (fun q hq => mem_positions.mp hq)
      (Or.inl ⟨rfl, rfl⟩) h
  have hmult : validate_map m = .ERR_MULTIPLE_EMPTY_AREAS →
      ∃ p q, OpenCell m p ∧ OpenCell m q ∧ ¬ Reachable m p q := by
    intro h
    exact validateGo_multiple m (positions m) ∅ 0
      (fun q hq => mem_positions.mp hq) (Or.inl ⟨rfl, rfl⟩) h
  have htotal : validate_map m = .ERR_NONE ∨ validate_map m = .ERR_MULTIPLE_EMPTY_AREAS :=
    validateGo_total m (positions m) ∅ 0
  constructor
  · constructor
    · exact hnone
    · intro hall
      rcases htotal with h | h
      · exact h
      · exfalso
        obtain ⟨p, q, hp, hq, hnr⟩ := hmult h
        exact hnr (hall p q hp hq)
  · constructor
    · exact hmult
    · rintro ⟨p, q, hp, hq, hnr⟩
      rcases htotal with h | h
      · exact absurd (hnone h p q hp hq) hnr
      · exact h

/-! ### Mover lemmas -/

theorem target_range_iff {m : Map} {x y : Nat} {dx dy : Int} :
    (¬(((x : Int) + dx) < 1 ∨ (m.rows : Int) < (x : Int) + dx ∨ ((y : Int) + dy) < 1 ∨
       (m.cols : Int) < (y : Int) + dy)) ↔
      (((x : Int) + dx).toNat, ((y : Int) + dy).toNat) ∈ rangeSet m := by
  rw [mem_rangeSet]
  dsimp only
  omega

theorem parseDir_cases {s : String} {d : Int × Int} (h : parseDir s = some d) :
    d = (-1, 0) ∨ d = (1, 0) ∨ d = (0, -1) ∨ d = (0, 1) := by
  unfold parseDir at h
  split_ifs at h
  · exact Or.inl (Option.some.inj h).symm
  · exact Or.inr (Or.inl (Option.some.inj h).symm)
  · exact Or.inr (Or.inr (Or.inl (Option.some.inj h).symm))
  · exact Or.inr (Or.inr (Or.inr (Option.some.inj h).symm))

theorem findPos_unique {m : Map} {c : Char} {p : Pos} (hp : p ∈ rangeSet m)
    (hpc : cellAt m p = c) (huniq : ∀ q ∈ rangeSet m, cellAt m q = c → q = p) :
    findPos m c = some p := by
  apply find?_eq_of_unique
  · exact mem_positions.mpr hp
  · simp [hpc]
  · intro b hb hpb
    exact huniq b (mem_positions.mp hb) (by simpa using hpb)

theorem countChar_eq_one {m : Map} {c : Char} {p : Pos} (hp : p ∈ rangeSet m)
    (hpc : cellAt m p = c) (huniq : ∀ q ∈ rangeSet m, cellAt m q = c → q = p) :
    countChar m c = 1 := by
  unfold countChar
  have hfil : (rangeSet m).filter (fun q => cellAt m q = c) = {p} := by
    apply Finset.ext
    intro q
    simp only [Finset.mem_filter, Finset.mem_singleton]
    constructor
    · rintro ⟨hq, hqc⟩
      exact huniq q hq hqc
    · rintro rfl
      exact ⟨hp, hpc⟩
  rw [hfil, Finset.card_singleton]

theorem playerChar_ne_dot {player : Nat} (h : player ≤ 9) : playerChar player ≠ '.' := by
  interval_cases player <;> decide

theorem target_ne {m : Map} {p t : Pos} {dx dy : Int}
    (hd : (dx, dy) = ((-1 : Int), (0 : Int)) ∨ (dx, dy) = ((1 : Int), (0 : Int)) ∨
      (dx, dy) = ((0 : Int), (-1 : Int)) ∨ (dx, dy) = ((0 : Int), (1 : Int)))
    (ht : t = (((p.1 : Int) + dx).toNat, ((p.2 : Int) + dy).toNat))
    (htr : t ∈ rangeSet m) (hpr : p ∈ rangeSet m) : t ≠ p := by
  subst ht
  rw [mem_rangeSet] at htr hpr
  dsimp only at htr hpr
  rcases hd with h | h | h | h <;>
    (injection h with h1 h2; subst h1; subst h2; intro heq; rw [Prod.ext_iff] at heq;
     dsimp only at heq; omega)

instance (m : Map) (p q : Pos) : Decidable (AdjC m p q) := by
  unfold AdjC; exact inferInstance

/-- The grid loaded from the line `".0."`: its cells holding `'.'` or a digit
`0`-`9` form one 4-connected component, but its `is_empty` cells (`'0'`
excluded) form two. -/
def mapDotZeroDot : Map := ⟨1, 3, [['.', '0', '.']]⟩

/-! ### Claim theorems -/

/-- C1 (amended): for every grid, the validator succeeds exactly when the open
cells in the sense of the code — cells holding `'.'` or a digit `'1'`-`'9'`
(`'0'` is not open) — form zero or one 4-connected component, and it returns
`ERR_MULTIPLE_EMPTY_AREAS` exactly when those cells form two or more disjoint
4-connected components. -/
theorem C1_validator_components (m : Map) :
    (validate_map m = .ERR_NONE ↔ AllReach m) ∧
    (validate_map m = .ERR_MULTIPLE_EMPTY_AREAS ↔
      ∃ p q, OpenCell m p ∧ OpenCell m q ∧ ¬ Reachable m p q) :=
  validate_map_correct m

/-- C1 counterexample: on the loadable grid `".0."` the spec-open cells
(`'.'` or any digit `0`-`9`) form a single 4-connected component, yet
`validate_map` returns `ERR_MULTIPLE_EMPTY_AREAS`, because the code's
`is_empty` does not treat `'0'` as open. -/
theorem C1_counterexample :
    load_map [['.', '0', '.']] = .ok mapDotZeroDot ∧
    validate_map mapDotZeroDot = .ERR_MULTIPLE_EMPTY_AREAS ∧
    (∀ p q, openC mapDotZeroDot p → openC mapDotZeroDot q → ReachC mapDotZeroDot p q) := by
  refine ⟨by rfl, ?_, ?_⟩
  · decide
  · have h12 : AdjC mapDotZeroDot (1, 1) (1, 2) := by decide
    have h21 : AdjC mapDotZeroDot (1, 2) (1, 1) := by decide
    have h23 : AdjC mapDotZeroDot (1, 2) (1, 3) := by decide
    have h32 : AdjC mapDotZeroDot (1, 3) (1, 2) := by decide
    intro p q hp hq
    obtain ⟨a, b⟩ := p
    obtain ⟨c, d⟩ := q
    have h1 := mem_rangeSet.mp hp.1
    have h2 := mem_rangeSet.mp hq.1
    simp only [mapDotZeroDot] at h1 h2
    obtain ⟨⟨ha1, ha2⟩, hb1, hb2⟩ := h1
    obtain ⟨⟨hc1, hc2⟩, hd1, hd2⟩ := h2
    obtain rfl : a = 1 := by omega
    obtain rfl : c = 1 := by omega
    interval_cases b <;> interval_cases d
    · exact Relation.ReflTransGen.refl
    · exact Relation.ReflTransGen.single h12
    · exact (Relation.ReflTransGen.single h12).trans (Relation.ReflTransGen.single h23)
    · exact Relation.ReflTransGen.single h21
    · exact Relation.ReflTransGen.refl
    · exact Relation.ReflTransGen.single h23
    · exact (Relation.ReflTransGen.single h32).trans (Relation.ReflTransGen.single h21)
    · exact Relation.ReflTransGen.single h32
    · exact Relation.ReflTransGen.refl

/-- C7: a grid all of whose cells are walls has no open cell, so the region
counter stays 0 and the validator succeeds. -/
theorem C7_all_walls_valid (m : Map) (h : ∀ p ∈ rangeSet m, cellAt m p = '#') :
    validate_map m = .ERR_NONE := by
  have hall : AllReach m := by
    intro p q hp _
    exfalso
    have hw := h p hp.1
    have he := hp.2
    simp [is_empty, is_player, hw] at he
  exact (validate_map_correct m).1.mpr hall

/-- C7 witness: the all-wall 1×2 grid validates successfully. -/
theorem C7_witness : validate_map ⟨1, 2, [['#', '#']]⟩ = .ERR_NONE :=
  C7_all_walls_valid ⟨1, 2, [['#', '#']]⟩ (by decide)

/-- C2: the loader succeeds exactly when the non-blank lines (after CR/LF
stripping) share the length of the first one, that length is in
`[1, MAX_MAP_DIM]`, all characters are `'#'`, `'.'` or digits, and there are
at most `MAX_MAP_DIM` such lines; every violation yields `ERR_INVALID_MAP`. -/
theorem C2_loader (lines : List (List Char)) :
    ((∃ m, load_map lines = .ok m) ↔ goodInput lines) ∧
    (¬ goodInput lines → load_map lines = .error .ERR_INVALID_MAP) := by
  constructor
  · exact load_map_iff lines
  · intro hng
    cases h : load_map lines with
    | ok m => exact absurd ((load_map_iff lines).mp ⟨m, h⟩) hng
    | error e =>
      have he : e = .ERR_INVALID_MAP := by
        apply load_go_error lines ⟨0, 0, []⟩ e
        rw [← load_map]
        exact h
      rw [he]

/-- C2 witness: a line with the invalid character `'x'` is rejected with
`ERR_INVALID_MAP`. -/
theorem C2_witness : load_map [['#', 'x']] = .error .ERR_INVALID_MAP :=
  (C2_loader [['#', 'x']]).2 (by decide)

/-- C6: for well-formed input the loader succeeds and the renderer reproduces
the input lines, modulo removal of blank lines and newline normalization
(both captured by `nonBlank`). -/
theorem C6_roundtrip (lines : List (List Char)) (hg : goodInput lines) :
    ∃ m, load_map lines = .ok m ∧ print_map m = nonBlank lines := by
  obtain ⟨m, hm⟩ := (load_map_iff lines).mpr hg
  refine ⟨m, hm, ?_⟩
  rw [print_map_eq_cells (load_map_WF hg hm)]
  exact (load_map_ok_state lines m hm).1

/-- C6 witness: a concrete two-row map round-trips. -/
theorem C6_witness :
    ∃ m, load_map [['#', '.'], [], ['#', '#']] = .ok m ∧
      print_map m = nonBlank [['#', '.'], [], ['#', '#']] :=
  C6_roundtrip [['#', '.'], [], ['#', '#']] (by decide)

/-- C3: with the player's digit on exactly one cell, a valid direction, and an
in-bounds `'.'` target, the move succeeds, the origin becomes `'.'`, the target
becomes the digit, all other in-bounds cells are unchanged, and the digit
occupies exactly one cell before and after. -/
theorem C3_move_success (m : Map) (player : Nat) (direction : String) (dx dy : Int)
    (p t : Pos) (hWF : WF m) (hpl : player ≤ 9)
    (hdir : parseDir direction = some (dx, dy))
    (hp : p ∈ rangeSet m) (hpc : cellAt m p = playerChar player)
    (huniq : ∀ q ∈ rangeSet m, cellAt m q = playerChar player → q = p)
    (ht : t = (((p.1 : Int) + dx).toNat, ((p.2 : Int) + dy).toNat))
    (htr : t ∈ rangeSet m) (htc : cellAt m t = '.') :
    move_player m player direction =
      (.ERR_NONE, setCell (setCell m p '.') t (playerChar player)) ∧
    cellAt (setCell (setCell m p '.') t (playerChar player)) p = '.' ∧
    cellAt (setCell (setCell m p '.') t (playerChar player)) t = playerChar player ∧
    (∀ q ∈ rangeSet m, q ≠ p → q ≠ t →
      cellAt (setCell (setCell m p '.') t (playerChar player)) q = cellAt m q) ∧
    countChar m (playerChar player) = 1 ∧
    countChar (setCell (setCell m p '.') t (playerChar player)) (playerChar player) = 1 := by
  have hfind : findPos m (playerChar player) = some p := findPos_unique hp hpc huniq
  have hne : t ≠ p := target_ne (parseDir_cases hdir) ht htr hp
  have hWF1 : WF (setCell m p '.') := WF_setCell hWF hp '.'
  have htr1 : t ∈ rangeSet (setCell m p '.') := htr
  have hpb := mem_rangeSet.mp hp
  have hct : cellAt (setCell (setCell m p '.') t (playerChar player)) t = playerChar player :=
    cellAt_setCell_self hWF1 htr1 _
  have hcp : cellAt (setCell (setCell m p '.') t (playerChar player)) p = '.' := by
    rw [cellAt_setCell_ne hWF1 htr1 (by omega) (by omega) (Ne.symm hne) _]
    exact cellAt_setCell_self hWF hp '.'
  have hother : ∀ q ∈ rangeSet m, q ≠ p → q ≠ t →
      cellAt (setCell (setCell m p '.') t (playerChar player)) q = cellAt m q := by
    intro q hq hqp hqt
    have hqb := mem_rangeSet.mp hq
    rw [cellAt_setCell_ne hWF1 htr1 (by omega) (by omega) hqt _]
    exact cellAt_setCell_ne hWF hp (by omega) (by omega) hqp _
  have hmove : move_player m player direction =
      (.ERR_NONE, setCell (setCell m p '.') t (playerChar player)) := by
    obtain ⟨x, y⟩ := p
    simp only [move_player, hdir, hfind]
    rw [if_neg (target_range_iff.mpr (ht ▸ htr))]
    rw [if_neg (by rw [← ht]; exact fun hcon => hcon htc)]
    rw [← ht]
  refine ⟨hmove, hcp, hct, hother, countChar_eq_one hp hpc huniq, ?_⟩
  have huniq2 : ∀ q ∈ rangeSet (setCell (setCell m p '.') t (playerChar player)),
      cellAt (setCell (setCell m p '.') t (playerChar player)) q = playerChar player → q = t := by
    intro q hq hqc
    have hq' : q ∈ rangeSet m := hq
    by_cases hqt : q = t
    · exact hqt
    · exfalso
      by_cases hqp : q = p
      · subst hqp
        rw [hcp] at hqc
        exact playerChar_ne_dot hpl hqc.symm
      · rw [hother q hq' hqp hqt] at hqc
        exact hqp (huniq q hq' hqc)
  exact countChar_eq_one (m := setCell (setCell m p '.') t (playerChar player))
    htr1 hct huniq2

/-- C4: with the player present, a valid direction whose one-step target is out
of bounds or not `'.'` makes the move fail with `ERR_MOVE_FAILED` and the grid
returned unchanged. -/
theorem C4_move_blocked (m : Map) (player : Nat) (direction : String) (dx dy : Int)
    (x y : Nat) (t : Pos)
    (hdir : parseDir direction = some (dx, dy))
    (hfind : findPos m (playerChar player) = some (x, y))
    (ht : t = (((x : Int) + dx).toNat, ((y : Int) + dy).toNat))
    (hfail : t ∉ rangeSet m ∨ cellAt m t ≠ '.') :
    move_player m player direction = (.ERR_MOVE_FAILED, m) := by
  subst ht
  simp only [move_player, hdir, hfind]
  by_cases hb : ((x : Int) + dx) < 1 ∨ (m.rows : Int) < (x : Int) + dx ∨
      ((y : Int) + dy) < 1 ∨ (m.cols : Int) < (y : Int) + dy
  · rw [if_pos hb]
  · rw [if_neg hb]
    have htr := target_range_iff.mp hb
    rcases hfail with h | h
    · exact absurd htr h
    · rw [if_pos h]

/-- C5: with a valid direction and the player's digit absent, the mover places
the digit on the row-major-first `'.'` cell and succeeds; with no `'.'` cell
at all it fails with `ERR_MOVE_FAILED`. -/
theorem C5_place_absent (m : Map) (player : Nat) (direction : String) (d : Int × Int)
    (hdir : parseDir direction = some d)
    (habs : findPos m (playerChar player) = none) :
    (∀ q, findPos m '.' = some q →
      move_player m player direction = (.ERR_NONE, setCell m q (playerChar player)) ∧
        rowMajorFirst m '.' q) ∧
    (findPos m '.' = none → move_player m player direction = (.ERR_MOVE_FAILED, m)) := by
  obtain ⟨dx, dy⟩ := d
  constructor
  · intro q hq
    exact ⟨by simp only [move_player, hdir, habs, hq], findPos_rowMajorFirst hq⟩
  · intro hq
    simp only [move_player, hdir, habs, hq]

/-- C8: the direction strings are interpreted exactly as `up` = row −1,
`down` = row +1, `left` = column −1, `right` = column +1, and any other string
makes `move_player` fail with `ERR_MOVE_FAILED`, grid unchanged. -/
theorem C8_directions :
    parseDir "up" = some (-1, 0) ∧ parseDir "down" = some (1, 0) ∧
    parseDir "left" = some (0, -1) ∧ parseDir "right" = some (0, 1) ∧
    ∀ s : String, s ≠ "up" → s ≠ "down" → s ≠ "left" → s ≠ "right" →
      ∀ (m : Map) (player : Nat), move_player m player s = (.ERR_MOVE_FAILED, m) := by
  refine ⟨by decide, by decide, by decide, by decide, ?_⟩
  intro s h1 h2 h3 h4 m player
  have hno : parseDir s = none := by
    unfold parseDir
    rw [if_neg h1, if_neg h2, if_neg h3, if_neg h4]
  simp only [move_player, hno]

/-- C9: an unrecognised direction string fails with `ERR_MOVE_FAILED` and the
grid unchanged even when the player is absent and an open `'.'` cell exists:
the direction check precedes absent-player placement. -/
theorem C9_bad_direction_no_placement (m : Map) (player : Nat) (direction : String)
    (h1 : direction ≠ "up") (h2 : direction ≠ "down") (h3 : direction ≠ "left")
    (h4 : direction ≠ "right")
    (habs : findPos m (playerChar player) = none)
    (hdot : ∃ q ∈ positions m, cellAt m q = '.') :
    move_player m player direction = (.ERR_MOVE_FAILED, m) := by
  have hno : parseDir direction = none := by
    unfold parseDir
    rw [if_neg h1, if_neg h2, if_neg h3, if_neg h4]
  simp only [move_player, hno]

/-- C10: the flood fill terminates with recursion depth bounded by the cell
count: any depth budget of at least `rows * cols + 1` gives the same result as
`deep_search`, the visited set strictly grows by at least the start cell, and
it grows only by in-bounds cells. -/
theorem C10_deep_search_terminates (m : Map) (fuel : Nat) (p : Pos) (v : Finset Pos)
    (hfuel : m.rows * m.cols + 1 ≤ fuel) (hp : p ∈ rangeSet m) (hpv : p ∉ v) :
    deepF m fuel p v = deep_search m p v ∧ insert p v ⊆ deep_search m p v ∧
      deep_search m p v ⊆ v ∪ rangeSet m := by
  refine ⟨?_, deep_search_insert_subset m p v, ?_⟩
  · rw [deep_search]
    have hcard : (rangeSet m \ v).card ≤ m.rows * m.cols := by
      have hle := Finset.card_le_card (Finset.sdiff_subset (s := rangeSet m) (t := v))
      rw [card_rangeSet] at hle
      exact hle
    exact deepF_stable m (m.rows * m.cols) p v fuel _ hcard hp hpv (by omega) (by omega)
  · refine (deepF_subset_range m _ p v).trans ?_
    intro x hx
    rcases Finset.mem_insert.mp hx with rfl | hx
    · exact Finset.mem_union_right _ hp
    · exact hx

/-- A 2×2 grid with player `3` at (1,1), floor at (1,2), walls below. -/
def gMove : Map := ⟨2, 2, [['3', '.'], ['#', '#']]⟩

/-- A 1×2 grid with a wall and one floor cell, no player. -/
def gAbsent : Map := ⟨1, 2, [['#', '.']]⟩

/-- C3 witness: player 3 moves right onto the floor cell of `gMove`. -/
theorem C3_witness :
    move_player gMove 3 "right" =
      (.ERR_NONE, setCell (setCell gMove (1, 1) '.') (1, 2) (playerChar 3)) :=
  (C3_move_success gMove 3 "right" 0 1 (1, 1) (1, 2) (by decide) (by decide) (by decide)
    (by decide) (by decide) (by decide) (by decide) (by decide) (by decide)).1

/-- C4 witness: player 3 moving down into a wall fails and leaves `gMove`
unchanged. -/
theorem C4_witness : move_player gMove 3 "down" = (.ERR_MOVE_FAILED, gMove) :=
  C4_move_blocked gMove 3 "down" 1 0 1 1 (2, 1) (by decide) (by decide) (by decide)
    (Or.inr (by decide))

/-- C5 witness: with player 3 absent from `gAbsent`, `move up` places the digit
on the row-major-first floor cell (1,2). -/
theorem C5_witness :
    move_player gAbsent 3 "up" = (.ERR_NONE, setCell gAbsent (1, 2) (playerChar 3)) ∧
      rowMajorFirst gAbsent '.' (1, 2) :=
  (C5_place_absent gAbsent 3 "up" (-1, 0) (by decide) (by decide)).1 (1, 2) (by decide)

/-- C8 witness: the unknown direction string `"upp"` fails. -/
theorem C8_witness : move_player gMove 7 "upp" = (.ERR_MOVE_FAILED, gMove) :=
  C8_directions.2.2.2.2 "upp" (by decide) (by decide) (by decide) (by decide) gMove 7

/-- C9 witness: an unknown direction fails even though player 3 is absent from
`gAbsent` and a `'.'` cell is available. -/
theorem C9_witness : move_player gAbsent 3 "north" = (.ERR_MOVE_FAILED, gAbsent) :=
  C9_bad_direction_no_placement gAbsent 3 "north" (by decide) (by decide) (by decide)
    (by decide) (by decide) (by decide)

/-- C10 witness: on the 1×3 grid, depth budget 4 = rows·cols + 1 is already
exact, and the flood fill from (1,1) stays within bounds. -/
theorem C10_witness :
    deepF mapDotZeroDot 4 (1, 1) ∅ = deep_search mapDotZeroDot (1, 1) ∅ ∧
      insert (1, 1) ∅ ⊆ deep_search mapDotZeroDot (1, 1) ∅ ∧
      deep_search mapDotZeroDot (1, 1) ∅ ⊆ ∅ ∪ rangeSet mapDotZeroDot :=
  C10_deep_search_terminates mapDotZeroDot 4 (1, 1) ∅ (by decide) (by decide) (by decide)

end Labyrinth
